import Mathlib

/-!
Verification of the realtime voice-session core of the GeminiGPT repository
(`src/components/MessageBubble.tsx`, `VoiceChatOverlay` component, lines
357-759 of the concatenated source file).

The development shallowly embeds:
* the audio codec (`createBlob`, `decode`, `decodeAudioData`, lines 368-417),
  including the host-level semantics those functions rely on: ECMAScript
  `ToInt16` (truncation toward zero followed by reduction modulo 2^16) for
  `Int16Array` element assignment, the little-endian byte view
  `new Uint8Array(int16.buffer)`, `btoa`/`atob` base64, the `RangeError`
  thrown by `new Int16Array(buffer)` on a buffer whose byte length is not a
  multiple of 2, and the `NotSupportedError` thrown by
  `AudioContext.createBuffer` on a zero frame count or an unusable channel
  count;
* the playback scheduler embedded in the `onmessage` callback
  (lines 549-573): gapless start-time computation, the pending-source set,
  and the interruption flush;
* the session orchestrator (`startSession` lines 479-595, `stopSession`
  lines 597-638) with its resource fields and teardown;
* the capture pipeline's mute check (`processor.onaudioprocess`,
  lines 519-527), modelling the JavaScript closure capture of the React
  state variable `isMuted` explicitly, because the callback reads the value
  captured when the session opened, not the current component state.

Float samples are modelled as rationals: every float32 sample is a rational,
and the two arithmetic operations the code performs on samples
(multiplication by the power of two 32768 and division by 32768.0) are exact
in float64, so the rational model computes exactly what the JavaScript
computes on every float32 input. To keep the definitions kernel-executable,
rational values produced by the embedded code are built with `Rat.divInt`
and integer division rather than the field operations of `ℚ`; bridge lemmas
relate them to `⌊·⌋`, `*` and `/` for the statements.
-/

namespace GeminiVoice

/-! ## Base64 (`btoa` / `atob`)

`createBlob` builds a binary string from the little-endian byte view of the
`Int16Array` and applies `btoa`; `decode` applies `atob` and reads the
character codes back into bytes. Both are modelled over lists of byte
values (naturals below 256). -/

/-- Alphabet used by `btoa`: the 64 standard base64 digits. -/
def b64Alphabet : List Char :=
  "ABCDEFGHIJKLMNOPQRSTUVWXYZabcdefghijklmnopqrstuvwxyz0123456789+/".toList

/-- Character for a 6-bit group. -/
def b64Char (n : ℕ) : Char := b64Alphabet.getD n '?'

/-- Index of a base64 digit, `none` for a character outside the alphabet
(`atob` throws on such input; `'='` is handled by the group structure). -/
def b64Index (c : Char) : Option ℕ := b64Alphabet.findIdx? (· = c)

/-- Base64 encoding of a byte list, three bytes to four digits, with `'='`
padding, exactly as `btoa` produces on a binary string of those bytes. -/
def b64EncodeBytes : List ℕ → List Char
  | [] => []
  | [a] => [b64Char (a / 4), b64Char (a % 4 * 16), '=', '=']
  | [a, b] => [b64Char (a / 4), b64Char (a % 4 * 16 + b / 16), b64Char (b % 16 * 4), '=']
  | a :: b :: c :: rest =>
      b64Char (a / 4) :: b64Char (a % 4 * 16 + b / 16) ::
      b64Char (b % 16 * 4 + c / 64) :: b64Char (c % 64) :: b64EncodeBytes rest

/-- Base64 decoding of a character list, four digits back to three bytes,
`'='` padding closing the stream; `none` models the `InvalidCharacterError`
that `atob` throws on malformed input. -/
def b64DecodeChars : List Char → Option (List ℕ)
  | [] => some []
  | w :: x :: y :: z :: rest =>
      match b64Index w, b64Index x with
      | some a, some b =>
          if y = '=' then
            if z = '=' ∧ rest = [] then some [a * 4 + b / 16] else none
          else
            match b64Index y with
            | some c =>
                if z = '=' then
                  if rest = [] then some [a * 4 + b / 16, b % 16 * 16 + c / 4] else none
                else
                  match b64Index z, b64DecodeChars rest with
                  | some d, some bs =>
                      some ((a * 4 + b / 16) :: (b % 16 * 16 + c / 4) :: (c % 4 * 64 + d) :: bs)
                  | _, _ => none
            | none => none
      | _, _ => none
  | _ => none

/-! ## Outbound encoding: `createBlob` (lines 368-388) -/

/-- Truncation toward zero of a rational, the integer conversion step of
ECMAScript `ToInt16` applied to a finite number. Written with integer
division on the reduced numerator and denominator so that it evaluates by
kernel reduction; `jsTrunc_eq` below gives the `⌊·⌋`/`⌈·⌉` reading. -/
def jsTrunc (q : ℚ) : ℤ :=
  if 0 ≤ q.num then q.num / (q.den : ℤ) else -((-q.num) / (q.den : ℤ))

/-- The 16 low bits retained by the `Int16Array` element store
`int16[i] = data[i] * 32768` (line 372): truncate toward zero, then reduce
modulo 2^16 to the canonical representative in `[0, 65536)`. -/
def toInt16Bits (x : ℚ) : ℕ := ((jsTrunc x) % 65536).toNat

/-- The product `data[i] * 32768` (line 372), built with `Rat.divInt` so
that it evaluates by kernel reduction; `scaleSample_eq` below identifies it
with `s * 32768`. -/
def scaleSample (s : ℚ) : ℚ := Rat.divInt (s.num * 32768) (s.den : ℤ)

/-- The `Blob` value returned by `createBlob`: base64 payload and MIME tag. -/
structure GenaiBlob where
  data : List Char
  mimeType : String
deriving DecidableEq

/-- Embedding of `createBlob` (lines 368-388): each float sample is stored
into an `Int16Array` (ECMAScript `ToInt16` of `sample * 32768`), the array's
buffer is viewed as bytes (little-endian platform order, low byte first),
the bytes become a binary string, and `btoa` produces the payload, tagged
`audio/pcm;rate=16000`. -/
def createBlob (data : List ℚ) : GenaiBlob :=
  { data := b64EncodeBytes (List.flatten (data.map (fun s =>
      let b := toInt16Bits (scaleSample s)
      [b % 256, b / 256])))
    mimeType := "audio/pcm;rate=16000" }

/-- Embedding of `decode` (lines 390-398): `atob`, then character codes. -/
def decode (base64 : List Char) : Option (List ℕ) := b64DecodeChars base64

/-! ## Inbound decoding: `decodeAudioData` (lines 400-417) -/

/-- Signed 16-bit value of a little-endian byte pair, the value read from
`Int16Array` element storage. -/
def toInt16 (lo hi : ℕ) : ℤ :=
  let u := lo + 256 * hi
  if u < 32768 then (u : ℤ) else (u : ℤ) - 65536

/-- Byte list reinterpreted as little-endian signed 16-bit integers, the
view `new Int16Array(data.buffer)` (line 406) provides on an even-length
buffer. -/
def bytesToInt16s : List ℕ → List ℤ
  | lo :: hi :: rest => toInt16 lo hi :: bytesToInt16s rest
  | _ => []

/-- Exceptions `decodeAudioData` can propagate: `RangeError` from
`new Int16Array(buffer)` on an odd byte length, `NotSupportedError` from
`ctx.createBuffer` on a zero frame count or a channel count outside the
supported range `[1, 32]`. -/
inductive DecodeError where
  | rangeError
  | notSupportedError
deriving DecidableEq

/-- Result of `decodeAudioData`: the `AudioBuffer`, one sample list per
channel. -/
structure AudioBufferModel where
  sampleRate : ℚ
  channels : List (List ℚ)
deriving DecidableEq

/-- Embedding of `decodeAudioData` (lines 400-417).

`new Int16Array(data.buffer)` throws `RangeError` when the byte length is
odd. `frameCount = dataInt16.length / numChannels` is JavaScript number
division; `ctx.createBuffer` receives it through WebIDL `unsigned long`
conversion, which truncates, and throws `NotSupportedError` when the
resulting length is 0 or the channel count is outside `[1, 32]`. The copy
loop runs `i` below the untruncated `frameCount`, but every write with
`i ≥ ⌊frameCount⌋` is an out-of-bounds typed-array store and is discarded,
and every read it performs for `i < ⌊frameCount⌋` is in bounds; the
resulting buffer therefore holds `⌊dataInt16.length / numChannels⌋` frames,
channel `c` sample `i` being `dataInt16[i * numChannels + c] / 32768.0`. -/
def decodeAudioData (bytes : List ℕ) (sampleRate : ℚ) (numChannels : ℕ) :
    Except DecodeError AudioBufferModel :=
  if bytes.length % 2 ≠ 0 then .error .rangeError
  else
    let dataInt16 := bytesToInt16s bytes
    if numChannels = 0 ∨ 32 < numChannels then .error .notSupportedError
    else
      let frameCount := dataInt16.length / numChannels
      if frameCount = 0 then .error .notSupportedError
      else .ok
        { sampleRate := sampleRate
          channels := (List.range numChannels).map (fun c =>
            (List.range frameCount).map (fun i =>
              Rat.divInt (dataInt16.getD (i * numChannels + c) 0) 32768)) }

/-! ## Session state (`VoiceChatOverlay` refs, lines 420-441)

One record holds the component's session-scoped mutable state: the two
connection flags (`isConnecting`, `isConnected` React state), the five
device/stream/context refs (`streamRef`, `processorRef`, `sourceRef`,
`inputAudioContextRef`, `outputAudioContextRef`, each an `Option` over an
abstract handle), the playback clock cursor `nextStartTimeRef` and the
pending-source set `audioSourcesRef` (a JavaScript `Set` iterated in
insertion order, modelled as a duplicate-free-by-use list of source
handles). -/

/-- Mutable session state of the overlay component. -/
structure OrchState where
  isConnecting : Bool
  isConnected : Bool
  stream : Option ℕ
  processor : Option ℕ
  source : Option ℕ
  inputAudioContext : Option ℕ
  outputAudioContext : Option ℕ
  nextStartTime : ℚ
  audioSources : List ℕ
deriving DecidableEq

/-! ## Playback scheduler (`onmessage`, lines 549-572) -/

/-- Scheduling of one decoded chunk (lines 553-565): if the playback cursor
has fallen behind the device clock it is first pulled up to
`ctx.currentTime`, the source starts at the resulting cursor value, the
cursor advances by the buffer's duration, and the source joins the
pending set (`Set.add` keeps an already-present element unique). Returns
the start time passed to `source.start` together with the new state. -/
def scheduleChunk (currentTime duration : ℚ) (src : ℕ) (st : OrchState) :
    ℚ × OrchState :=
  let start := if st.nextStartTime < currentTime then currentTime else st.nextStartTime
  (start,
    { st with
      nextStartTime := start + duration
      audioSources :=
        if src ∈ st.audioSources then st.audioSources else st.audioSources ++ [src] })

/-- Start times produced by a run of chunk arrivals, each given as
(device time at scheduling, buffer duration). -/
def runSchedule (st : OrchState) : List (ℚ × ℚ) → List ℚ
  | [] => []
  | (now, dur) :: rest =>
      (scheduleChunk now dur 0 st).1 :: runSchedule (scheduleChunk now dur 0 st).2 rest

/-- Interruption flush (lines 569-572): `stop()` is called once on each
member of the pending set in iteration order, the set is cleared, and the
cursor is reset to 0. The first component is the list of `stop` calls
issued. -/
def flush (st : OrchState) : List ℕ × OrchState :=
  (st.audioSources, { st with audioSources := [], nextStartTime := 0 })

/-- Natural end of one scheduled source (`source.onended`, lines 563-565):
the source is removed from the pending set. -/
def onended (src : ℕ) (st : OrchState) : OrchState :=
  { st with audioSources := st.audioSources.erase src }

/-- Duration of a decoded buffer, `AudioBuffer.duration`: frame count
divided by the buffer's sample rate. -/
def bufferDuration (buf : AudioBufferModel) : ℚ :=
  ((buf.channels.getD 0 []).length : ℚ) / buf.sampleRate

/-- Server message as seen by `onmessage` (lines 535-574): optional base64
audio payload `msg.serverContent?.modelTurn?.parts[0]?.inlineData?.data`
and the `msg.serverContent?.interrupted` flag. -/
structure VoiceMsg where
  audioData : Option (List Char)
  interrupted : Bool

/-- Embedding of the `onmessage` handler (lines 535-574). The audio block
runs first: missing output context returns early (line 540), skipping the
interruption check as well; a failure inside
`decodeAudioData(decode(...))` rejects the async handler's promise, so
nothing after it runs and the session state is untouched; a successful
decode schedules the chunk. The interruption block (lines 569-573) runs
after the audio block within the same invocation. `currentTime` is the
output device clock at the scheduling statement, `src` the handle of the
freshly created buffer source. -/
def onmessage (msg : VoiceMsg) (currentTime : ℚ) (src : ℕ) (st : OrchState) :
    OrchState :=
  match msg.audioData with
  | some b64 =>
      match st.outputAudioContext with
      | none => st
      | some _ =>
          match decode b64 with
          | none => st
          | some bytes =>
              match decodeAudioData bytes 24000 1 with
              | .error _ => st
              | .ok buf =>
                  let st1 := (scheduleChunk currentTime (bufferDuration buf) src st).2
                  if msg.interrupted then (flush st1).2 else st1
  | none => if msg.interrupted then (flush st).2 else st

/-! ## Session orchestrator (`startSession` / `stopSession`) -/

/-- Guarded session start (lines 479-498): a call while already connecting
or connected returns immediately, leaving the state untouched; otherwise
the connecting flag is raised and the input/output audio contexts and the
microphone stream are acquired (the happy path up to the connect request;
the remaining wiring happens in `onopen`). -/
def startSession (st : OrchState) : OrchState :=
  if st.isConnecting || st.isConnected then st
  else
    { st with
      isConnecting := true
      inputAudioContext := some 0
      outputAudioContext := some 1
      stream := some 2 }

/-- The `onopen` callback (lines 510-534): the connection flags flip and
the capture source and processor nodes are created and wired. -/
def onopen (st : OrchState) : OrchState :=
  { st with
    isConnected := true
    isConnecting := false
    source := some 3
    processor := some 4 }

/-- Device resources released by `stopSession`, one per nullable ref. -/
inductive Resource where
  | stream
  | processor
  | sourceNode
  | inputCtx
  | outputCtx
deriving DecidableEq

/-- State after a completed teardown: both flags false, every ref null,
pending set empty, cursor 0. -/
def closedState : OrchState :=
  { isConnecting := false
    isConnected := false
    stream := none
    processor := none
    source := none
    inputAudioContext := none
    outputAudioContext := none
    nextStartTime := 0
    audioSources := [] }

/-- Embedding of `stopSession` (lines 597-638): each of the five
device/stream/context refs is released if and only if it is non-null, in
source order (stream tracks, processor, source, input context, output
context), and nulled right after; the pending sources are stopped inside
`try`/`catch` and cleared, the cursor is reset, and both connection flags
drop. The first component is the list of resource releases performed; the
handler is total (every `stop()` that can throw is wrapped, lines 630-632),
matching the no-exception behavior of the source. -/
def stopSession (st : OrchState) : List Resource × OrchState :=
  ((if st.stream.isSome then [Resource.stream] else []) ++
   (if st.processor.isSome then [Resource.processor] else []) ++
   (if st.source.isSome then [Resource.sourceNode] else []) ++
   (if st.inputAudioContext.isSome then [Resource.inputCtx] else []) ++
   (if st.outputAudioContext.isSome then [Resource.outputCtx] else []),
   closedState)

/-- N consecutive `stopSession` calls, concatenating their release logs. -/
def stopN : ℕ → OrchState → List Resource × OrchState
  | 0, st => ([], st)
  | n + 1, st =>
      ((stopSession st).1 ++ (stopN n (stopSession st).2).1,
       (stopN n (stopSession st).2).2)

/-- Whether a given resource is currently held (its ref is non-null). -/
def holdsResource (st : OrchState) : Resource → Bool
  | .stream => st.stream.isSome
  | .processor => st.processor.isSome
  | .sourceNode => st.source.isSome
  | .inputCtx => st.inputAudioContext.isSome
  | .outputCtx => st.outputAudioContext.isSome

/-! ## Capture pipeline and the mute flag (lines 519-527, 736-739)

`processor.onaudioprocess` tests `if (isMuted) return;` — but `isMuted` is
a `useState` value, a constant of the render in which the closure was
created. The handler is installed once, inside `onopen`, from the render
whose effect opened the session; the mute button only calls
`setIsMuted(!isMuted)`, which re-renders with a new constant and neither
re-installs the handler nor stores the flag in a ref. The handler therefore
keeps testing the value captured at session open for the whole life of the
session. The embedding carries both values: `isMuted` (the current React
state the button toggles) and `capturedMuted` (the value frozen into the
closure at open). -/

/-- Capture-side session state: current mute flag, the mute value captured
by the `onaudioprocess` closure, and the log of packets forwarded via
`session.sendRealtimeInput`. -/
structure CaptureRun where
  isMuted : Bool
  capturedMuted : Bool
  sent : List GenaiBlob
deriving DecidableEq

/-- Embedding of `processor.onaudioprocess` (lines 519-527): the closure
tests the mute value captured at install time; when it is clear, the frame
is encoded with `createBlob` and forwarded to the session. -/
def onaudioprocess (frame : List ℚ) (run : CaptureRun) : CaptureRun :=
  if run.capturedMuted then run
  else { run with sent := run.sent ++ [createBlob frame] }

/-- Events interleaving during a capture session: a click on the mute
button (lines 736-739), or a capture frame delivered by the device. -/
inductive CaptureEvent where
  | toggleMute
  | audioProcess (frame : List ℚ)

/-- One event step: the button toggles the React state; a frame runs the
installed `onaudioprocess` closure. -/
def captureStep (run : CaptureRun) : CaptureEvent → CaptureRun
  | .toggleMute => { run with isMuted := !run.isMuted }
  | .audioProcess f => onaudioprocess f run

/-- A run of capture-session events. -/
def captureRun (run : CaptureRun) (evs : List CaptureEvent) : CaptureRun :=
  evs.foldl captureStep run

/-- State right after `onopen` installed the processor callback: the
closure captures the mute flag of the opening render; nothing sent yet. -/
def openCapture (muted : Bool) : CaptureRun :=
  { isMuted := muted, capturedMuted := muted, sent := [] }

/-! ## Proof layer -/

/-- The byte stream `createBlob` base64-encodes: per sample, the low and
high byte of the 16-bit value, in this order (little-endian). -/
def pcmBytes (data : List ℚ) : List ℕ :=
  List.flatten (data.map (fun s =>
    let b := toInt16Bits (scaleSample s)
    [b % 256, b / 256]))



theorem jsTrunc_eq (q : ℚ) : jsTrunc q = if 0 ≤ q then ⌊q⌋ else ⌈q⌉ := by
  rw [jsTrunc]
  by_cases h : 0 ≤ q
  · rw [if_pos (Rat.num_nonneg.mpr h), if_pos h, Rat.floor_def]
  · rw [if_neg (by simpa [Rat.num_nonneg] using h), if_neg h]
    rw [show ⌈q⌉ = -⌊-q⌋ by rw [Int.floor_neg, neg_neg]]
    rw [Rat.floor_def, Rat.neg_num, Rat.neg_den]

theorem scaleSample_eq (s : ℚ) : scaleSample s = s * 32768 := by
  rw [scaleSample, Rat.divInt_eq_div]
  push_cast
  rw [mul_comm (s.num : ℚ) 32768, mul_div_assoc, Rat.num_div_den, mul_comm]

theorem b64Index_b64Char_aux : ∀ s : Fin 64, b64Index (b64Char s.val) = some s.val := by decide

theorem b64Index_b64Char {s : ℕ} (h : s < 64) : b64Index (b64Char s) = some s :=
  b64Index_b64Char_aux ⟨s, h⟩

theorem b64Char_ne_pad {s : ℕ} (h : s < 64) : ¬ b64Char s = '=' := by
  intro he
  have := b64Index_b64Char h
  rw [he] at this
  rw [show b64Index '=' = none by decide] at this
  exact Option.noConfusion this



theorem b64_roundtrip : ∀ bs : List ℕ, (∀ b ∈ bs, b < 256) →
    b64DecodeChars (b64EncodeBytes bs) = some bs := by
  intro bs
  induction bs using b64EncodeBytes.induct with
  | case1 =>
      intro _
      rfl
  | case2 a =>
      intro hb
      have ha : a < 256 := hb a (by simp)
      have h1 : a / 4 < 64 := by omega
      have h2 : a % 4 * 16 < 64 := by omega
      simp only [b64EncodeBytes, b64DecodeChars, b64Index_b64Char h1, b64Index_b64Char h2]
      simp only [if_pos rfl, and_self, reduceIte, Option.some.injEq, List.cons.injEq,
        and_true]
      omega
  | case3 a b =>
      intro hb
      have ha : a < 256 := hb a (by simp)
      have hbb : b < 256 := hb b (by simp)
      have h1 : a / 4 < 64 := by omega
      have h2 : a % 4 * 16 + b / 16 < 64 := by omega
      have h3 : b % 16 * 4 < 64 := by omega
      simp only [b64EncodeBytes, b64DecodeChars, b64Index_b64Char h1, b64Index_b64Char h2,
        b64Index_b64Char h3]
      rw [if_neg (b64Char_ne_pad h3)]
      simp only [if_pos rfl, reduceIte, Option.some.injEq, List.cons.injEq, and_true]
      constructor <;> omega
  | case4 a b c rest ih =>
      intro hb
      have ha : a < 256 := hb a (by simp)
      have hbb : b < 256 := hb b (by simp)
      have hc : c < 256 := hb c (by simp)
      have h1 : a / 4 < 64 := by omega
      have h2 : a % 4 * 16 + b / 16 < 64 := by omega
      have h3 : b % 16 * 4 + c / 64 < 64 := by omega
      have h4 : c % 64 < 64 := by omega
      have hrest : ∀ x ∈ rest, x < 256 := by
        intro x hx
        exact hb x (by simp [hx])
      simp only [b64EncodeBytes, b64DecodeChars, b64Index_b64Char h1, b64Index_b64Char h2,
        b64Index_b64Char h3, b64Index_b64Char h4, ih hrest]
      rw [if_neg (b64Char_ne_pad h3), if_neg (b64Char_ne_pad h4)]
      simp only [Option.some.injEq, List.cons.injEq]
      refine ⟨by omega, by omega, by omega, trivial⟩



theorem createBlob_data (data : List ℚ) :
    (createBlob data).data = b64EncodeBytes (pcmBytes data) := rfl

theorem toInt16Bits_lt (x : ℚ) : toInt16Bits x < 65536 := by
  rw [toInt16Bits]
  have h1 : 0 ≤ jsTrunc x % 65536 := Int.emod_nonneg _ (by norm_num)
  have h2 : jsTrunc x % 65536 < 65536 := Int.emod_lt_of_pos _ (by norm_num)
  omega

theorem pcmBytes_lt (data : List ℚ) : ∀ b ∈ pcmBytes data, b < 256 := by
  intro b hb
  rw [pcmBytes, List.mem_flatten] at hb
  obtain ⟨l, hl, hbl⟩ := hb
  rw [List.mem_map] at hl
  obtain ⟨s, _, rfl⟩ := hl
  have := toInt16Bits_lt (scaleSample s)
  simp only [List.mem_cons, List.mem_singleton] at hbl
  rcases hbl with rfl | rfl | h
  · omega
  · omega
  · exact absurd h (List.not_mem_nil b)

theorem pcmBytes_length (data : List ℚ) : (pcmBytes data).length = 2 * data.length := by
  induction data with
  | nil => rfl
  | cons s rest ih => simp [pcmBytes, List.flatten] at ih ⊢; omega

theorem decode_createBlob (data : List ℚ) :
    decode (createBlob data).data = some (pcmBytes data) := by
  rw [createBlob_data, decode]
  exact b64_roundtrip _ (pcmBytes_lt data)

theorem bytesToInt16s_pcmBytes (data : List ℚ) :
    bytesToInt16s (pcmBytes data) =
      data.map (fun s =>
        toInt16 (toInt16Bits (scaleSample s) % 256) (toInt16Bits (scaleSample s) / 256)) := by
  induction data with
  | nil => rfl
  | cons s rest ih =>
      simp only [pcmBytes, List.map_cons, List.flatten, bytesToInt16s] at ih ⊢
      simpa using ih

theorem bytesToInt16s_length : ∀ l : List ℕ, (bytesToInt16s l).length = l.length / 2 := by
  intro l
  induction l using bytesToInt16s.induct with
  | case1 lo hi rest ih => simp [bytesToInt16s, ih]; omega
  | case2 l h => cases l with
      | nil => simp [bytesToInt16s]
      | cons a t =>
          cases t with
          | nil => simp [bytesToInt16s]
          | cons b t' => exact absurd rfl (h a b t')

theorem toInt16_recover {t : ℤ} (h1 : -32768 ≤ t) (h2 : t ≤ 32767) :
    toInt16 ((t % 65536).toNat % 256) ((t % 65536).toNat / 256) = t := by
  rw [toInt16]
  have e1 : 0 ≤ t % 65536 := Int.emod_nonneg _ (by norm_num)
  have e2 : t % 65536 < 65536 := Int.emod_lt_of_pos _ (by norm_num)
  have e3 : t % 65536 = t ∨ t % 65536 = t + 65536 := by omega
  omega



theorem jsTrunc_dist (x : ℚ) : |(jsTrunc x : ℚ) - x| < 1 := by
  rw [jsTrunc_eq, abs_sub_lt_iff]
  by_cases h : 0 ≤ x
  · rw [if_pos h]
    constructor
    · have := Int.floor_le x
      linarith
    · have := Int.sub_one_lt_floor x
      linarith
  · rw [if_neg h]
    constructor
    · have := Int.ceil_lt_add_one x
      linarith
    · have := Int.le_ceil x
      linarith

theorem jsTrunc_range {x : ℚ} (h1 : -32768 ≤ x) (h2 : x < 32768) :
    -32768 ≤ jsTrunc x ∧ jsTrunc x ≤ 32767 := by
  rw [jsTrunc_eq]
  by_cases h : 0 ≤ x
  · rw [if_pos h]
    constructor
    · have : (0 : ℤ) ≤ ⌊x⌋ := Int.floor_nonneg.mpr h
      omega
    · have : ⌊x⌋ < 32768 := Int.floor_lt.mpr (by exact_mod_cast h2)
      omega
  · rw [if_neg h]
    constructor
    · have : (-32768 : ℤ) ≤ ⌈x⌉ := by
        calc (-32768 : ℤ) = ⌈(-32768 : ℚ)⌉ := by
              rw [show ((-32768 : ℚ)) = ((-32768 : ℤ) : ℚ) by norm_num, Int.ceil_intCast]
          _ ≤ ⌈x⌉ := Int.ceil_le_ceil h1
      omega
    · have : ⌈x⌉ ≤ 0 := Int.ceil_le.mpr (by exact_mod_cast le_of_not_le h)
      omega

theorem map_range_getD {α : Type} (l : List α) (d : α) :
    (List.range l.length).map (fun i => l.getD i d) = l := by
  induction l with
  | nil => rfl
  | cons a t ih =>
      rw [List.length_cons, List.range_succ_eq_map, List.map_cons, List.map_map]
      simp only [List.getD_cons_zero, Function.comp_def, List.getD_cons_succ]
      rw [ih]

theorem decodeAudioData_mono (bytes : List ℕ) (rate : ℚ)
    (heven : bytes.length % 2 = 0) (hne : bytes ≠ []) :
    decodeAudioData bytes rate 1 =
      .ok ⟨rate, [(bytesToInt16s bytes).map (fun v => Rat.divInt v 32768)]⟩ := by
  have hlen : bytes.length ≠ 0 := fun h => hne (List.eq_nil_of_length_eq_zero h)
  have hfc : (bytesToInt16s bytes).length ≠ 0 := by
    rw [bytesToInt16s_length]
    omega
  rw [decodeAudioData]
  rw [if_neg (by omega)]
  rw [if_neg (by norm_num)]
  rw [if_neg (by simpa using hfc)]
  simp only [Except.ok.injEq, AudioBufferModel.mk.injEq, true_and]
  rw [show List.range 1 = [0] from rfl, List.map_cons, List.map_nil]
  simp only [Nat.div_one, Nat.mul_one, Nat.add_zero]
  rw [show (fun i => Rat.divInt ((bytesToInt16s bytes).getD i 0) 32768)
        = (fun v => Rat.divInt v 32768) ∘ (fun i => (bytesToInt16s bytes).getD i 0) by
      funext i
      simp]
  rw [← List.map_map, map_range_getD]



theorem pcm_int16_values (data : List ℚ) (hb : ∀ s ∈ data, -1 ≤ s ∧ s < 1) :
    bytesToInt16s (pcmBytes data) = data.map (fun s => jsTrunc (s * 32768)) := by
  rw [bytesToInt16s_pcmBytes]
  apply List.map_congr_left
  intro s hs
  obtain ⟨h1, h2⟩ := hb s hs
  have hr1 : (-32768 : ℚ) ≤ s * 32768 := by nlinarith
  have hr2 : s * 32768 < 32768 := by nlinarith
  have hro := jsTrunc_range hr1 hr2
  rw [toInt16Bits, scaleSample_eq]
  exact toInt16_recover hro.1 hro.2

theorem sample_roundtrip_dist (s : ℚ) :
    |Rat.divInt (jsTrunc (s * 32768)) 32768 - s| ≤ 1 / 32768 := by
  rw [Rat.divInt_eq_div]
  have hd : |(jsTrunc (s * 32768) : ℚ) - s * 32768| < 1 := jsTrunc_dist (s * 32768)
  have he : ((jsTrunc (s * 32768) : ℤ) : ℚ) / ((32768 : ℤ) : ℚ) - s
      = (((jsTrunc (s * 32768) : ℤ) : ℚ) - s * 32768) / 32768 := by
    push_cast
    ring
  rw [he, abs_div, abs_of_pos (show (0 : ℚ) < 32768 by norm_num)]
  exact (div_le_div_iff_of_pos_right (show (0 : ℚ) < 32768 by norm_num)).mpr (le_of_lt hd)



theorem pcmBytes_getD (data : List ℚ) :
    ∀ i < data.length,
      (pcmBytes data).getD (2 * i) 0 = toInt16Bits (scaleSample (data.getD i 0)) % 256 ∧
      (pcmBytes data).getD (2 * i + 1) 0 = toInt16Bits (scaleSample (data.getD i 0)) / 256 := by
  induction data with
  | nil => intro i hi; simp at hi
  | cons s rest ih =>
      intro i hi
      cases i with
      | zero => simp [pcmBytes]
      | succ j =>
          have hj : j < rest.length := by simpa using hi
          have hs : 2 * (j + 1) = (2 * j) + 1 + 1 := by omega
          rw [hs]
          simp only [pcmBytes, List.map_cons, List.flatten, List.cons_append,
            List.nil_append, List.getD_cons_succ, List.getD_cons_zero]
          exact ih j hj

theorem bytesToInt16s_mem_range :
    ∀ l : List ℕ, (∀ b ∈ l, b < 256) → ∀ v ∈ bytesToInt16s l, -32768 ≤ v ∧ v ≤ 32767 := by
  intro l
  induction l using bytesToInt16s.induct with
  | case1 lo hi rest ih =>
      intro hb v hv
      simp only [bytesToInt16s, List.mem_cons] at hv
      rcases hv with rfl | hv
      · have hlo : lo < 256 := hb lo (by simp)
        have hhi : hi < 256 := hb hi (by simp)
        rw [toInt16]
        refine ⟨?_, ?_⟩ <;> split <;> omega
      · exact ih (fun b hbb => hb b (by simp [hbb])) v hv
  | case2 l h =>
      intro hb v hv
      cases l with
      | nil => simp [bytesToInt16s] at hv
      | cons a t =>
          cases t with
          | nil => simp [bytesToInt16s] at hv
          | cons b t' => exact absurd rfl (h a b t')



/-- C1 (amended): for every nonempty sample sequence whose values lie in
`[-1, 1)`, decoding the encoded packet — `decodeAudioData` applied to
`decode` of `(createBlob S).data`, at the matching sample rate with channel
count 1 — yields a sequence of the same length within `1/32768` of the
input at every index. (At the boundary value `1` the unclamped conversion
wraps to `-1`; see the counterexample.) -/
theorem codec_roundtrip (S : List ℚ) (hne : S ≠ [])
    (hb : ∀ s ∈ S, -1 ≤ s ∧ s < 1) :
    ∃ bytes S',
      decode (createBlob S).data = some bytes ∧
      decodeAudioData bytes 24000 1 = .ok ⟨24000, [S']⟩ ∧
      S'.length = S.length ∧
      ∀ i < S.length, |S'.getD i 0 - S.getD i 0| ≤ 1 / 32768 := by
  have hlen2 : (pcmBytes S).length = 2 * S.length := pcmBytes_length S
  have hSne : S.length ≠ 0 := fun h => hne (List.eq_nil_of_length_eq_zero h)
  refine ⟨pcmBytes S, S.map (fun s => Rat.divInt (jsTrunc (s * 32768)) 32768),
    decode_createBlob S, ?_, by simp, ?_⟩
  · rw [decodeAudioData_mono _ _ (by omega)
      (by
        intro h
        have h0 : (pcmBytes S).length = 0 := by rw [h]; rfl
        omega)]
    rw [pcm_int16_values S hb, List.map_map]
    rfl
  · intro i hi
    have hmi : i < (S.map (fun s => Rat.divInt (jsTrunc (s * 32768)) 32768)).length := by
      simpa using hi
    rw [List.getD_eq_getElem _ _ hmi, List.getD_eq_getElem _ _ hi, List.getElem_map]
    exact sample_roundtrip_dist S[i]

/-- C1 witness: the round-trip theorem applied to the one-sample sequence
`[0]`. -/
theorem codec_roundtrip_witness :
    (([(0 : ℚ)] : List ℚ) ≠ [] ∧ ∀ s ∈ ([(0 : ℚ)] : List ℚ), -1 ≤ s ∧ s < 1) ∧
    (∃ bytes S',
      decode (createBlob [(0 : ℚ)]).data = some bytes ∧
      decodeAudioData bytes 24000 1 = .ok ⟨24000, [S']⟩ ∧
      S'.length = ([(0 : ℚ)] : List ℚ).length ∧
      ∀ i < ([(0 : ℚ)] : List ℚ).length,
        |S'.getD i 0 - ([(0 : ℚ)] : List ℚ).getD i 0| ≤ 1 / 32768) :=
  ⟨⟨by decide, by decide⟩, codec_roundtrip [0] (by decide) (by decide)⟩

/-- C1 counterexample: the claim admits the full interval `[-1, 1]`, but at
`S = [1]` the conversion `ToInt16(1 * 32768)` wraps to `-32768`, the decoded
sequence is `[-1]`, and the per-sample error is `2`, far above `1/32768`. -/
theorem codec_roundtrip_counterexample :
    ((-1 : ℚ) ≤ 1 ∧ (1 : ℚ) ≤ 1) ∧
    decode (createBlob [(1 : ℚ)]).data = some [0, 128] ∧
    decodeAudioData [0, 128] 24000 1 = .ok ⟨24000, [[-1]]⟩ ∧
    ¬ |(-1 : ℚ) - 1| ≤ 1 / 32768 :=
  ⟨⟨by decide, by decide⟩, by decide, rfl, by norm_num⟩

/-- C9 (amended): `createBlob` converts each float sample to its 16-bit
value by truncation toward zero of `sample * 32768` followed by reduction
modulo 2^16 (ECMAScript `ToInt16`; rounding is NOT applied, see the
counterexample), with no clamping so out-of-range input wraps, packs the
16-bit values little-endian (low byte first), text-safe encodes the bytes
with base64, and tags the packet `audio/pcm;rate=16000`. -/
theorem encode_characterization (data : List ℚ) :
    (createBlob data).mimeType = "audio/pcm;rate=16000" ∧
    ∃ bytes, decode (createBlob data).data = some bytes ∧
      bytes.length = 2 * data.length ∧
      ∀ i < data.length,
        bytes.getD (2 * i) 0 < 256 ∧
        (bytes.getD (2 * i) 0 : ℤ) + 256 * (bytes.getD (2 * i + 1) 0 : ℤ)
          = jsTrunc (data.getD i 0 * 32768) % 65536 := by
  refine ⟨rfl, pcmBytes data, decode_createBlob data, pcmBytes_length data, ?_⟩
  intro i hi
  obtain ⟨hlo, hhi⟩ := pcmBytes_getD data i hi
  rw [hlo, hhi]
  have hble : toInt16Bits (scaleSample (data.getD i 0)) < 65536 := toInt16Bits_lt _
  have hbits : (toInt16Bits (scaleSample (data.getD i 0)) : ℤ)
      = jsTrunc (data.getD i 0 * 32768) % 65536 := by
    rw [toInt16Bits, scaleSample_eq]
    have h1 : 0 ≤ jsTrunc (data.getD i 0 * 32768) % 65536 :=
      Int.emod_nonneg _ (by norm_num)
    omega
  constructor
  · omega
  · push_cast
    omega

/-- C9 witness: the characterization applied to the one-sample sequence
`[0]` at index 0. -/
theorem encode_characterization_witness :
    (createBlob [(0 : ℚ)]).mimeType = "audio/pcm;rate=16000" ∧
    ∃ bytes, decode (createBlob [(0 : ℚ)]).data = some bytes ∧
      bytes.length = 2 * ([(0 : ℚ)] : List ℚ).length ∧
      ∀ i < ([(0 : ℚ)] : List ℚ).length,
        bytes.getD (2 * i) 0 < 256 ∧
        (bytes.getD (2 * i) 0 : ℤ) + 256 * (bytes.getD (2 * i + 1) 0 : ℤ)
          = jsTrunc (([(0 : ℚ)] : List ℚ).getD i 0 * 32768) % 65536 :=
  encode_characterization [0]

/-- C9 counterexample: the claim's conversion is `round(sample * 32768)`,
but the `Int16Array` store truncates toward zero. At the float32 sample
`3/65536` (so `sample * 32768 = 3/2`) the code stores the 16-bit value 1
(bytes `[1, 0]`), while `round(3/2) = 2`. -/
theorem encode_rounding_counterexample :
    decode (createBlob [Rat.divInt 3 65536]).data = some [1, 0] ∧
    round ((Rat.divInt 3 65536) * 32768) = 2 ∧
    ((1 : ℕ) : ℤ) + 256 * ((0 : ℕ) : ℤ) ≠ 2 :=
  ⟨by decide, by rw [Rat.divInt_eq_div, round_eq]; norm_num, by decide⟩



/-- C10: for every well-formed inbound packet (byte length a multiple of
`2 * channelCount`) that decodes successfully, every sample of every
channel lies in `[-1, 32767/32768]`; the decoder never emits a value
outside `[-1, 1]`. -/
theorem decoded_sample_range (bytes : List ℕ) (rate : ℚ) (nc : ℕ)
    (hbytes : ∀ b ∈ bytes, b < 256)
    (_hwf : 2 * nc ∣ bytes.length)
    (out : AudioBufferModel) (hout : decodeAudioData bytes rate nc = .ok out) :
    ∀ ch ∈ out.channels, ∀ s ∈ ch, -1 ≤ s ∧ s ≤ 32767 / 32768 := by
  intro ch hch s hs
  rw [decodeAudioData] at hout
  split at hout
  · exact absurd hout (by simp)
  · split at hout
    · exact absurd hout (by simp)
    · dsimp only at hout
      split at hout
      · exact absurd hout (by simp)
      · simp only [Except.ok.injEq] at hout
        rw [← hout] at hch
        simp only [List.mem_map] at hch
        obtain ⟨c, _, rfl⟩ := hch
        simp only [List.mem_map] at hs
        obtain ⟨i, _, rfl⟩ := hs
        set v := (bytesToInt16s bytes).getD (i * nc + c) 0 with hv
        have hvr : -32768 ≤ v ∧ v ≤ 32767 := by
          by_cases hlt : i * nc + c < (bytesToInt16s bytes).length
          · rw [hv, List.getD_eq_getElem _ _ hlt]
            exact bytesToInt16s_mem_range bytes hbytes _ (List.getElem_mem hlt)
          · rw [hv, List.getD_eq_default _ _ (by omega)]
            norm_num
        rw [Rat.divInt_eq_div]
        constructor
        · rw [show (-1 : ℚ) = (-32768 : ℤ) / ((32768 : ℤ) : ℚ) by norm_num]
          exact (div_le_div_iff_of_pos_right (by norm_num)).mpr (by exact_mod_cast hvr.1)
        · rw [show (32767 : ℚ) / 32768 = ((32767 : ℤ) : ℚ) / ((32768 : ℤ) : ℚ) by norm_num]
          exact (div_le_div_iff_of_pos_right (by norm_num)).mpr (by exact_mod_cast hvr.2)

/-- C10 witness: the range theorem applied to the two-byte packet
`[0, 128]` (one frame, one channel), which decodes to `[[-1]]`. -/
theorem decoded_sample_range_witness :
    (∀ b ∈ ([0, 128] : List ℕ), b < 256) ∧
    (2 * 1 ∣ ([0, 128] : List ℕ).length) ∧
    (∀ ch ∈ (AudioBufferModel.mk 24000 [[-1]]).channels, ∀ s ∈ ch,
      -1 ≤ s ∧ s ≤ 32767 / 32768) :=
  ⟨by decide, by decide,
    decoded_sample_range [0, 128] 24000 1 (by decide) (by decide) ⟨24000, [[-1]]⟩ rfl⟩



theorem scheduleChunk_start_max (now dur : ℚ) (src : ℕ) (st : OrchState) :
    (scheduleChunk now dur src st).1 = max now st.nextStartTime := by
  rw [scheduleChunk]
  dsimp only
  by_cases h : st.nextStartTime < now
  · rw [if_pos h, max_eq_left (le_of_lt h)]
  · rw [if_neg h, max_eq_right (not_lt.mp h)]

theorem scheduleChunk_next (now dur : ℚ) (src : ℕ) (st : OrchState) :
    (scheduleChunk now dur src st).2.nextStartTime = (scheduleChunk now dur src st).1 + dur :=
  rfl

theorem scheduleChunk_start_of_le {now : ℚ} {st : OrchState} (dur : ℚ) (src : ℕ)
    (h : now ≤ st.nextStartTime) :
    (scheduleChunk now dur src st).1 = st.nextStartTime := by
  rw [scheduleChunk]
  dsimp only
  rw [if_neg (not_lt.mpr h)]

theorem runSchedule_gapless : ∀ (chunks : List (ℚ × ℚ)) (st : OrchState),
    (∀ i, i + 1 < chunks.length →
      (chunks.getD (i + 1) (0, 0)).1 ≤
        (runSchedule st chunks).getD i 0 + (chunks.getD i (0, 0)).2) →
    ∀ i, i + 1 < chunks.length →
      (runSchedule st chunks).getD (i + 1) 0 =
        (runSchedule st chunks).getD i 0 + (chunks.getD i (0, 0)).2 := by
  intro chunks
  induction chunks with
  | nil => intro st h i hi; simp at hi
  | cons c rest ih =>
      obtain ⟨now, dur⟩ := c
      intro st h i hi
      cases i with
      | zero =>
          cases rest with
          | nil => simp at hi
          | cons c1 rest' =>
              obtain ⟨n1, d1⟩ := c1
              have h0 := h 0 hi
              simp only [runSchedule, List.getD_cons_succ, List.getD_cons_zero] at h0 ⊢
              rw [scheduleChunk_start_of_le d1 0 (by rw [scheduleChunk_next]; exact h0),
                scheduleChunk_next]
      | succ j =>
          have hj : j + 1 < rest.length := by
            simp only [List.length_cons] at hi
            omega
          have hrest : ∀ k, k + 1 < rest.length →
              (rest.getD (k + 1) (0, 0)).1 ≤
                (runSchedule (scheduleChunk now dur 0 st).2 rest).getD k 0 +
                  (rest.getD k (0, 0)).2 := by
            intro k hk
            have hk2 : (k + 1) + 1 < ((now, dur) :: rest).length := by
              simp only [List.length_cons]
              omega
            have := h (k + 1) hk2
            simpa only [runSchedule, List.getD_cons_succ] using this
          simp only [runSchedule, List.getD_cons_succ]
          exact ih (scheduleChunk now dur 0 st).2 hrest j hj



/-- C2: scheduling computes the start time as `max(device.currentTime,
playbackCursor)` and advances the cursor to `startTime + duration`, the
duration of a decoded mono packet being its sample count divided by the
output sample rate; consequently, over any run of chunks each arriving no
later than the end of the previously scheduled audio, consecutive start
times satisfy `start[i+1] = start[i] + d[i]` exactly. -/
theorem gapless_scheduling (st : OrchState) (chunks : List (ℚ × ℚ))
    (harrive : ∀ i, i + 1 < chunks.length →
      (chunks.getD (i + 1) (0, 0)).1 ≤
        (runSchedule st chunks).getD i 0 + (chunks.getD i (0, 0)).2) :
    (∀ (now dur : ℚ) (src : ℕ) (s : OrchState),
        (scheduleChunk now dur src s).1 = max now s.nextStartTime ∧
        (scheduleChunk now dur src s).2.nextStartTime
          = (scheduleChunk now dur src s).1 + dur) ∧
    (∀ (bytes : List ℕ) (buf : AudioBufferModel),
        decodeAudioData bytes 24000 1 = .ok buf →
        bufferDuration buf = ((bytes.length / 2 : ℕ) : ℚ) / 24000) ∧
    (∀ i, i + 1 < chunks.length →
      (runSchedule st chunks).getD (i + 1) 0 =
        (runSchedule st chunks).getD i 0 + (chunks.getD i (0, 0)).2) := by
  refine ⟨fun now dur src s => ⟨scheduleChunk_start_max now dur src s, rfl⟩, ?_, 
    runSchedule_gapless chunks st harrive⟩
  intro bytes buf hbuf
  rw [decodeAudioData] at hbuf
  split at hbuf
  · exact absurd hbuf (by simp)
  · split at hbuf
    · exact absurd hbuf (by simp)
    · dsimp only at hbuf
      split at hbuf
      · exact absurd hbuf (by simp)
      · simp only [Except.ok.injEq] at hbuf
        rw [← hbuf, bufferDuration]
        simp only [Nat.div_one]
        rw [show List.range 1 = [0] from rfl, List.map_cons, List.map_nil,
          List.getD_cons_zero, List.length_map, List.length_range,
          bytesToInt16s_length]

/-- C2 witness: the theorem applied to two zero-length chunks arriving at
device time 0 from the fresh (closed) state. -/
theorem gapless_scheduling_witness :
    (∀ i, i + 1 < ([((0 : ℚ), (0 : ℚ)), (0, 0)] : List (ℚ × ℚ)).length →
      (([((0 : ℚ), (0 : ℚ)), (0, 0)] : List (ℚ × ℚ)).getD (i + 1) (0, 0)).1 ≤
        (runSchedule closedState [((0 : ℚ), (0 : ℚ)), (0, 0)]).getD i 0 +
          (([((0 : ℚ), (0 : ℚ)), (0, 0)] : List (ℚ × ℚ)).getD i (0, 0)).2) ∧
    (∀ i, i + 1 < ([((0 : ℚ), (0 : ℚ)), (0, 0)] : List (ℚ × ℚ)).length →
      (runSchedule closedState [((0 : ℚ), (0 : ℚ)), (0, 0)]).getD (i + 1) 0 =
        (runSchedule closedState [((0 : ℚ), (0 : ℚ)), (0, 0)]).getD i 0 +
          (([((0 : ℚ), (0 : ℚ)), (0, 0)] : List (ℚ × ℚ)).getD i (0, 0)).2) := by
  have harr : ∀ i, i + 1 < ([((0 : ℚ), (0 : ℚ)), (0, 0)] : List (ℚ × ℚ)).length →
      (([((0 : ℚ), (0 : ℚ)), (0, 0)] : List (ℚ × ℚ)).getD (i + 1) (0, 0)).1 ≤
        (runSchedule closedState [((0 : ℚ), (0 : ℚ)), (0, 0)]).getD i 0 +
          (([((0 : ℚ), (0 : ℚ)), (0, 0)] : List (ℚ × ℚ)).getD i (0, 0)).2 := by
    intro i hi
    have hi0 : i = 0 := by simp at hi; omega
    subst hi0
    simp [runSchedule, scheduleChunk, closedState]
  exact ⟨harr, (gapless_scheduling closedState _ harr).2.2⟩



/-- C3: after an interruption flush the pending set is empty, `stop` was
invoked exactly once on every source that was in the set at the moment of
the flush (and on nothing else), the playback cursor is reset to 0, and a
chunk scheduled after the flush starts at the current device time, never
earlier. -/
theorem interruption_flush (st : OrchState) (hnd : st.audioSources.Nodup)
    (now dur : ℚ) (src : ℕ) (hnow : 0 ≤ now) :
    (flush st).2.audioSources = [] ∧
    (∀ b ∈ st.audioSources, (flush st).1.count b = 1) ∧
    (∀ b, b ∉ st.audioSources → (flush st).1.count b = 0) ∧
    (flush st).2.nextStartTime = 0 ∧
    (scheduleChunk now dur src (flush st).2).1 = now := by
  refine ⟨rfl, ?_, ?_, rfl, ?_⟩
  · intro b hb
    exact List.count_eq_one_of_mem hnd hb
  · intro b hb
    exact List.count_eq_zero_of_not_mem hb
  · rw [scheduleChunk]
    dsimp only
    by_cases h : (0 : ℚ) < now
    · rw [if_pos (by simpa [flush] using h)]
    · have h0 : now = 0 := le_antisymm (not_lt.mp h) hnow
      rw [if_neg (by simp [flush, h0])]
      simp [flush, h0]

/-- C3 witness: the flush theorem applied to a state holding two pending
sources, with the next chunk arriving at device time 1. -/
theorem interruption_flush_witness :
    (([7, 8] : List ℕ).Nodup ∧ (0 : ℚ) ≤ 1) ∧
    ((flush ⟨false, true, none, none, none, none, some 1, 5, [7, 8]⟩).2.audioSources = [] ∧
     (∀ b ∈ ([7, 8] : List ℕ),
        (flush ⟨false, true, none, none, none, none, some 1, 5, [7, 8]⟩).1.count b = 1) ∧
     (∀ b, b ∉ ([7, 8] : List ℕ) →
        (flush ⟨false, true, none, none, none, none, some 1, 5, [7, 8]⟩).1.count b = 0) ∧
     (flush ⟨false, true, none, none, none, none, some 1, 5, [7, 8]⟩).2.nextStartTime = 0 ∧
     (scheduleChunk 1 0 9 (flush ⟨false, true, none, none, none, none, some 1, 5, [7, 8]⟩).2).1
       = 1) :=
  ⟨⟨by decide, by decide⟩,
   interruption_flush ⟨false, true, none, none, none, none, some 1, 5, [7, 8]⟩
     (by decide) 1 0 9 (by decide)⟩

/-- C4: the effective start time of a scheduled chunk is never behind the
device's current time; if the cursor has fallen behind real time the chunk
starts exactly at the current device time; and outside of interruption the
cursor is monotonically non-decreasing. -/
theorem playback_clock_invariant (st : OrchState) (now dur : ℚ) (src : ℕ)
    (hdur : 0 ≤ dur) :
    now ≤ (scheduleChunk now dur src st).1 ∧
    (st.nextStartTime < now → (scheduleChunk now dur src st).1 = now) ∧
    st.nextStartTime ≤ (scheduleChunk now dur src st).2.nextStartTime := by
  refine ⟨?_, ?_, ?_⟩
  · rw [scheduleChunk_start_max]
    exact le_max_left _ _
  · intro h
    rw [scheduleChunk]
    dsimp only
    rw [if_pos h]
  · rw [scheduleChunk_next, scheduleChunk_start_max]
    have h1 : st.nextStartTime ≤ max now st.nextStartTime := le_max_right _ _
    linarith

/-- C4 witness: the invariant applied to a state whose cursor (0) has
fallen behind the device clock (1), with a chunk of duration 2. -/
theorem playback_clock_invariant_witness :
    (0 : ℚ) ≤ 2 ∧
    ((1 : ℚ) ≤ (scheduleChunk 1 2 4 closedState).1 ∧
     (closedState.nextStartTime < 1 → (scheduleChunk 1 2 4 closedState).1 = 1) ∧
     closedState.nextStartTime ≤ (scheduleChunk 1 2 4 closedState).2.nextStartTime) :=
  ⟨by decide, playback_clock_invariant closedState 1 2 4 (by decide)⟩



/-- C5 (code bug): the claim states that with mute engaged no encoded frame
is forwarded, and the source's own comments agree (line 520 `if (isMuted)
return; // Do not send data if muted`, line 738 `The processor checks
this.`) — but `isMuted` is a React render constant captured by the
`onaudioprocess` closure when the session opened, so the installed handler
keeps testing the open-time value forever. Evaluating the embedded code:
opening unmuted and then toggling mute on, the next captured frame is still
encoded and forwarded (`sent` grows to 1 although `isMuted = true`); dually,
opening muted and toggling mute off, the next frame is still swallowed. -/
theorem mute_stale_closure :
    (captureRun (openCapture false) [.toggleMute, .audioProcess []]).isMuted = true ∧
    (captureRun (openCapture false) [.toggleMute, .audioProcess []]).sent.length = 1 ∧
    (captureRun (openCapture true) [.toggleMute, .audioProcess []]).isMuted = false ∧
    (captureRun (openCapture true) [.toggleMute, .audioProcess []]).sent.length = 0 := by
  decide

/-- C6: opening while a session is already connecting or connected is a
no-op that leaves the whole state unchanged — sessions never stack. -/
theorem idempotent_open (st : OrchState)
    (h : st.isConnecting = true ∨ st.isConnected = true) :
    startSession st = st := by
  rw [startSession]
  rcases h with h | h <;> simp [h]

/-- C6 witness: a second `startSession` on the state reached by opening a
fresh session and completing the connection leaves it unchanged. -/
theorem idempotent_open_witness :
    ((onopen (startSession closedState)).isConnecting = true ∨
      (onopen (startSession closedState)).isConnected = true) ∧
    startSession (onopen (startSession closedState)) = onopen (startSession closedState) :=
  ⟨by decide, idempotent_open _ (by decide)⟩

theorem stopSession_closed : stopSession closedState = ([], closedState) := rfl

theorem stopN_closed (n : ℕ) : stopN n closedState = ([], closedState) := by
  induction n with
  | zero => rfl
  | succ m ih =>
      rw [stopN, show (stopSession closedState).2 = closedState from rfl, ih]
      rfl

/-- C7: for every prior state and every N ≥ 1, N consecutive `stopSession`
calls throw no exception (the embedding is total, matching the guarded
source), leave the session in the closed state with every
device/stream/context field nulled, and release each device resource
exactly once if it was held when the first call ran — and never release a
resource that was not held (in particular a second teardown releases
nothing). -/
theorem idempotent_teardown (st : OrchState) (N : ℕ) (hN : 1 ≤ N) :
    (stopN N st).2 = closedState ∧
    (∀ r : Resource, (stopN N st).1.count r = if holdsResource st r then 1 else 0) := by
  obtain ⟨M, rfl⟩ : ∃ M, N = M + 1 := ⟨N - 1, by omega⟩
  have hsnd : (stopSession st).2 = closedState := rfl
  constructor
  · rw [stopN, hsnd, stopN_closed M]
  · intro r
    rw [stopN, hsnd, stopN_closed M]
    simp only [List.append_nil]
    obtain ⟨ic, co, s1, s2, s3, s4, s5, nst, as⟩ := st
    cases r <;> cases s1 <;> cases s2 <;> cases s3 <;> cases s4 <;> cases s5 <;>
      simp [stopSession, holdsResource]

/-- C7 witness: two teardowns of a fully started session release each of
the five resources exactly once and end in the closed state. -/
theorem idempotent_teardown_witness :
    1 ≤ 2 ∧
    (stopN 2 (onopen (startSession closedState))).2 = closedState ∧
    (∀ r : Resource,
      (stopN 2 (onopen (startSession closedState))).1.count r =
        if holdsResource (onopen (startSession closedState)) r then 1 else 0) :=
  ⟨by decide,
   (idempotent_teardown (onopen (startSession closedState)) 2 (by decide)).1,
   (idempotent_teardown (onopen (startSession closedState)) 2 (by decide)).2⟩



/-- C8 counterexample: the claim predicts `MalformedAudioError` exactly when
the byte length is not a multiple of `2 * channelCount`. A 6-byte packet
with channel count 2 has byte length 6, not a multiple of 4 — yet the code
decodes it successfully: the `Int16Array` view accepts any even byte
length, and `createBuffer` receives the fractional frame count `3 / 2`
truncated to 1. -/
theorem malformed_chunk_counterexample :
    (decodeAudioData [0, 0, 0, 0, 0, 0] 24000 2).isOk = true ∧
    ¬ (2 * 2 ∣ ([0, 0, 0, 0, 0, 0] : List ℕ).length) := by
  decide

/-- C8 (amended): a decode of an inbound packet fails exactly when the byte
length is odd (`RangeError` from the `Int16Array` view), the channel count
is outside `[1, 32]`, or the truncated frame count is zero
(`NotSupportedError` from `createBuffer`) — not when the byte length merely
fails to be a multiple of `2 * channelCount`; and a failing chunk is
recovered locally: the rejected handler drops that single chunk and the
session state is untouched, so a bad chunk never tears down the live
session. -/
theorem malformed_chunk_handling (bytes : List ℕ) (rate : ℚ) (nc : ℕ) :
    ((decodeAudioData bytes rate nc).isOk = false ↔
      bytes.length % 2 = 1 ∨ nc = 0 ∨ 32 < nc ∨ bytes.length / 2 / nc = 0) ∧
    (∀ (st : OrchState) (now : ℚ) (src : ℕ) (b64 : List Char) (bs : List ℕ)
        (intr : Bool),
      decode b64 = some bs →
      (decodeAudioData bs 24000 1).isOk = false →
      onmessage ⟨some b64, intr⟩ now src st = st) := by
  constructor
  · by_cases h1 : bytes.length % 2 ≠ 0
    · rw [decodeAudioData, if_pos h1]
      simp only [Except.isOk, Except.toBool, true_iff]
      exact Or.inl (by omega)
    · rw [decodeAudioData, if_neg h1]
      dsimp only
      by_cases h2 : nc = 0 ∨ 32 < nc
      · rw [if_pos h2]
        simp only [Except.isOk, Except.toBool, true_iff]
        rcases h2 with h | h
        · exact Or.inr (Or.inl h)
        · exact Or.inr (Or.inr (Or.inl h))
      · rw [if_neg h2]
        by_cases h3 : (bytesToInt16s bytes).length / nc = 0
        · rw [if_pos h3]
          rw [bytesToInt16s_length] at h3
          simp only [Except.isOk, Except.toBool, true_iff]
          exact Or.inr (Or.inr (Or.inr h3))
        · rw [if_neg h3]
          rw [bytesToInt16s_length] at h3
          simp only [Except.isOk, Except.toBool, Bool.true_eq_false, false_iff, not_or]
          rw [not_or] at h2
          exact ⟨by omega, h2.1, h2.2, h3⟩
  · intro st now src b64 bs intr hdec hfail
    cases hoc : st.outputAudioContext with
    | none => simp [onmessage, hoc]
    | some c =>
        cases hda : decodeAudioData bs 24000 1 with
        | error e => simp [onmessage, hoc, hdec, hda]
        | ok buf =>
            rw [hda] at hfail
            simp [Except.isOk, Except.toBool] at hfail

/-- C8 witness: the amended theorem applied to the one-byte packet `[0]`
(odd length, so the decode fails) arriving base64-encoded as `"AA=="` on a
live session with both flags up and all resources held: the message leaves
the session exactly as it was. -/
theorem malformed_chunk_handling_witness :
    (decode (['A', 'A', '=', '='] : List Char) = some [0] ∧
     (decodeAudioData [0] 24000 1).isOk = false) ∧
    onmessage ⟨some ['A', 'A', '=', '='], true⟩ 0 3 (onopen (startSession closedState))
      = onopen (startSession closedState) :=
  ⟨⟨by decide, by decide⟩,
   (malformed_chunk_handling [0] 24000 1).2 (onopen (startSession closedState)) 0 3
     ['A', 'A', '=', '='] [0] true (by decide) (by decide)⟩


end GeminiVoice
